import Mathlib

/-!
# A verification model of the `convert_matrix` conversion pipeline

This file gives a shallow embedding of the conversion pipeline implemented in
`src/gui_main_window.cpp` (`gui::MainWindow::runConversion`), and proves or
refutes the specification claims about it.

Modelling conventions:

* Strings (`std::string`) are modelled as `List Char`.
* `double` values are modelled exactly as sign-carrying decimal scaled
  integers (`Dec`, value `mant · 10 ^ exp`).  The model is exact-decimal: it
  does not model binary64 rounding, overflow/underflow (`ERANGE`) or hex
  float syntax; none of the claims' inputs exercise those.
* The file system is modelled by passing the input file's text content in and
  returning the list of (file name, written content) pairs out.  Output
  stream health (`std::ofstream::good()` after writing a row) is modelled by
  an oracle `good : List Char → Nat → Bool` (file name, 1-based row number).
* `CU_THROW(msg)` sites are modelled by the `ConvError` inductive; each
  constructor carries exactly the data interpolated into the thrown message,
  and `ConvError.message` reproduces the message text verbatim.
* Recursions are fuel-based or structural so that every definition reduces in
  the kernel (concrete claims are settled by `decide`).
-/

namespace ConvertMatrix

/-- A `double` value, modelled as the exact decimal `mant · 10 ^ exp`.
The istream extraction in the source parses decimal floating-point literals;
this type records the parsed value exactly. -/
structure Dec where
  mant : Int
  exp : Int
  deriving DecidableEq, Repr

/-- The whitespace characters of `std::isspace` in the classic locale, used
by `operator>>` to skip separators. -/
def isSpaceCpp (c : Char) : Bool :=
  c = ' ' || c = '\t' || c = '\n' || c = '\x0b' || c = '\x0c' || c = '\r'

/-- Stage-2 accumulation of `std::num_get` for a floating-point field (as
implemented by libstdc++ `_M_extract_float`, hex floats excluded): counts how
many leading characters are taken from the stream as the candidate numeric
field.  A sign is accepted at the start or right after an exponent marker, at
most one decimal point before the exponent, and an exponent marker only after
a mantissa digit. -/
def accumLen (foundDec foundSci seenDigit signOk : Bool) : List Char → Nat
  | [] => 0
  | c :: cs =>
    if signOk && (c = '+' || c = '-') then 1 + accumLen foundDec foundSci seenDigit false cs
    else if c.isDigit then 1 + accumLen foundDec foundSci true false cs
    else if c = '.' && !foundDec && !foundSci then 1 + accumLen true foundSci seenDigit false cs
    else if (c = 'e' || c = 'E') && !foundSci && seenDigit then 1 + accumLen foundDec true seenDigit true cs
    else 0

/-- Number of characters the extractor accumulates at the head of `l`. -/
def floatChars (l : List Char) : Nat := accumLen false false false true l

/-- Value of a list of decimal digit characters. -/
def digitsVal (ds : List Char) : Nat := ds.foldl (fun a c => 10 * a + (c.toNat - 48)) 0

/-- Stage-3 conversion (`strtod` on the accumulated field, which must be
consumed entirely): `[+-]? (digits [. digits*] | . digits+) ([eE] [+-]? digits+)?`.
Returns the exact decimal value. -/
def strtoDec (tok : List Char) : Option Dec :=
  let (sgn, t1) : Int × List Char :=
    match tok with
    | '+' :: r => (1, r)
    | '-' :: r => (-1, r)
    | r => (1, r)
  let ip := t1.takeWhile Char.isDigit
  let t2 := t1.dropWhile Char.isDigit
  let (fp, t3) : List Char × List Char :=
    match t2 with
    | '.' :: r => (r.takeWhile Char.isDigit, r.dropWhile Char.isDigit)
    | _ => ([], t2)
  let hasDot : Bool := match t2 with | '.' :: _ => true | _ => false
  if ip.isEmpty && (fp.isEmpty || !hasDot) then none
  else
    let mant : Int := sgn * (digitsVal (ip ++ fp) : Int)
    let e0 : Int := -(fp.length : Int)
    match t3 with
    | [] => some ⟨mant, e0⟩
    | c :: r =>
      if c = 'e' || c = 'E' then
        let (esgn, r2) : Int × List Char :=
          match r with
          | '+' :: q => (1, q)
          | '-' :: q => (-1, q)
          | q => (1, q)
        let ed := r2.takeWhile Char.isDigit
        let r3 := r2.dropWhile Char.isDigit
        if ed.isEmpty || !r3.isEmpty then none
        else some ⟨mant, e0 + esgn * (digitsVal ed : Int)⟩
      else none

/-- One line read through `std::istream_iterator<double>` until extraction
fails (source lines 114-118).  Returns the extracted values and whether the
line "could not be parsed to the end" (line 119: `is.bad() || !is.eof()`,
i.e. the failing extraction left unconsumed characters).  Fuel-based so the
kernel can evaluate it; `parseLine` supplies sufficient fuel. -/
def parseLineAux : Nat → List Char → List Dec × Bool
  | 0, _ => ([], false)
  | fuel+1, cs =>
    let rest := cs.dropWhile isSpaceCpp
    if rest.isEmpty then ([], false)
    else
      let k := floatChars rest
      match strtoDec (rest.take k) with
      | some v =>
        let pr := parseLineAux fuel (rest.drop k)
        (v :: pr.1, pr.2)
      | none => ([], !(rest.drop k).isEmpty)

/-- Values extracted from one input line, plus the parse-failure flag. -/
def parseLine (cs : List Char) : List Dec × Bool := parseLineAux (cs.length + 1) cs

/-- The errors thrown by `runConversion` (the `CU_THROW` sites reachable in
the model); each constructor carries the data interpolated into its
message. -/
inductive ConvError where
  | parseError (line : Nat) (file : List Char)
  | emptyMatrixError (file : List Char)
  | raggedRowError (line : Nat)
  | emptyTokenError
  | tokenNotFoundError
  | writeError (line : Nat) (file : List Char)
  deriving DecidableEq, Repr

/-- `std::to_string` on the (non-negative) row counter, fuel-based. -/
def natReprAux : Nat → Nat → List Char
  | 0, _ => []
  | fuel+1, n =>
    if n < 10 then [Nat.digitChar n]
    else natReprAux fuel (n / 10) ++ [Nat.digitChar (n % 10)]

/-- `std::to_string` of a natural number. -/
def natRepr (n : Nat) : List Char := natReprAux (n + 1) n

/-- The exact message text of each `CU_THROW` in the source. -/
def ConvError.message : ConvError → List Char
  | .parseError n file =>
      "Line ".toList ++ natRepr n ++ " in file '".toList ++ file ++
      "' could not be parsed to the end.".toList
  | .emptyMatrixError file =>
      "The file '".toList ++ file ++ "' does not contain samples.".toList
  | .raggedRowError n =>
      "Row ".toList ++ natRepr n ++
      "of the matrix contains a different number of samples than the first row.".toList
  | .emptyTokenError =>
      "No characters to be replaced in the output file pattern have been specified.".toList
  | .tokenNotFoundError =>
      "Replacement characters could not be found in the output file pattern.".toList
  | .writeError n file =>
      "Failed to write row ".toList ++ natRepr n ++ " to the file '".toList ++ file ++
      "'.".toList

/-- Modelled from the spec: `cu::extractByLine` (from the `cpp_utils`
dependency, not in this repository's sources) splits the input text into
lines on the line separator; trailing content without a terminator is the
final line, and a trailing terminator does not create an extra empty line
(`std::getline` semantics).  Fuel-based. -/
def extractByLineAux : Nat → List Char → List (List Char)
  | 0, _ => []
  | fuel+1, cs =>
    if cs.isEmpty then []
    else
      let line := cs.takeWhile (fun c => c != '\n')
      match cs.dropWhile (fun c => c != '\n') with
      | [] => [line]
      | _ :: rest => line :: extractByLineAux fuel rest

/-- The input file content split into lines. -/
def extractByLine (cs : List Char) : List (List Char) := extractByLineAux (cs.length + 1) cs

/-- The parsing loop (source lines 109-123): parse each line in order,
throwing `parseError` with the 1-based line number at the first line whose
parse fails. -/
def parseMatrixAux (file : List Char) : Nat → List (List Char) → Except ConvError (List (List Dec))
  | _, [] => .ok []
  | n, l :: ls =>
    let pr := parseLine l
    if pr.2 then .error (.parseError n file)
    else
      match parseMatrixAux file (n + 1) ls with
      | .error e => .error e
      | .ok rows => .ok (pr.1 :: rows)

/-- Parse the whole input file content into the raw matrix. -/
def parseMatrix (file content : List Char) : Except ConvError (List (List Dec)) :=
  parseMatrixAux file 1 (extractByLine content)

/-- The ragged-row scan (source lines 136-144): 1-based index of the first
row whose length differs from `w`, if any. -/
def firstMismatch (w : Nat) : Nat → List (List Dec) → Option Nat
  | _, [] => none
  | n, r :: rs => if r.length ≠ w then some n else firstMismatch w (n + 1) rs

/-- Validation (source lines 126-144): drop empty rows
(`std::remove_if` on `empty`), fail if nothing remains, then fail at the
first row whose length differs from the first row's. -/
def validateRows (file : List Char) (matrix : List (List Dec)) : Except ConvError (List (List Dec)) :=
  let m := matrix.filter (fun r => !r.isEmpty)
  if m.isEmpty then .error (.emptyMatrixError file)
  else
    match firstMismatch (m.headD []).length 1 m with
    | some n => .error (.raggedRowError n)
    | none => .ok m

/-- One step of the transpose loop body: `cu::for_each` over a row and the
column accumulator in lockstep (the dependency's dual-range `for_each` stops
at the shorter range), appending each row element to its column. -/
def pushRow : List Dec → List (List Dec) → List (List Dec)
  | x :: xs, t :: ts => (t ++ [x]) :: pushRow xs ts
  | [], ts => ts
  | _ :: _, [] => []

/-- The transpose step (source lines 146-156): start from
`matrix.front().size()` empty columns and push every row across them. -/
def transpose (m : List (List Dec)) : List (List Dec) :=
  m.foldl (fun t row => pushRow row t) (List.replicate (m.headD []).length [])

/-- Modelled from the spec: `cu::findBoyerMoore` (from the `cpp_utils`
dependency, not in this repository's sources) is an exact substring search
returning the position of the leftmost occurrence of `needle` in `hay`, or
`none` (the source's end iterator) when there is none. -/
def findBoyerMoore (needle hay : List Char) : Option Nat :=
  if needle.isPrefixOf hay then some 0
  else
    match hay with
    | [] => none
    | _ :: t => (findBoyerMoore needle t).map (· + 1)

/-- The output planning step (source lines 160-174): reject an empty token,
locate the token in the pattern, and split the pattern around its first
occurrence into `(outputFileNamesFirstPart, outputFileNamesLastPart)`. -/
def planOutput (replaceString outputFileNames : List Char) :
    Except ConvError (List Char × List Char) :=
  if replaceString.isEmpty then .error .emptyTokenError
  else
    match findBoyerMoore replaceString outputFileNames with
    | none => .error .tokenNotFoundError
    | some p => .ok (outputFileNames.take p, outputFileNames.drop (p + replaceString.length))

/-- The output file name for 1-based row `n` in per-row mode:
first part ++ `std::to_string(n)` ++ last part. -/
def rowFileName (pre suf : List Char) (n : Nat) : List Char := pre ++ natRepr n ++ suf

/-- Strip trailing `'0'` digits (default-float formatting drops them). -/
def stripZeros (l : List Char) : List Char := (l.reverse.dropWhile (fun c => c = '0')).reverse

/-- Number of decimal digits of `n`. -/
def decDigits (n : Nat) : Nat := (natRepr n).length

/-- `operator<<(std::ostream, double)` with the default format: precision 6,
`defaultfloat` (printf `%g`): round to 6 significant decimal digits, use
fixed notation when the decimal exponent is in `[-4, 6)` and scientific
notation otherwise, stripping trailing zeros.  Exact for the integer-valued
inputs exercised by the concrete claims; decimal rounding ties are resolved
upward (binary64 ties cannot be expressed in the exact-decimal model). -/
def printDouble (d : Dec) : List Char :=
  if d.mant = 0 then ['0']
  else
    let sign : List Char := if d.mant < 0 then ['-'] else []
    let n : Nat := d.mant.natAbs
    let k : Nat := decDigits n
    let M0 : Nat :=
      if k ≤ 6 then n * 10 ^ (6 - k)
      else (n / 10 ^ (k - 6)) + (if 10 ^ (k - 6) ≤ 2 * (n % 10 ^ (k - 6)) then 1 else 0)
    let e0 : Int := (k : Int) - 1 + d.exp
    let M : Nat := if M0 = 10 ^ 6 then 10 ^ 5 else M0
    let e : Int := if M0 = 10 ^ 6 then e0 + 1 else e0
    let ds := natRepr M
    sign ++
      (if -4 ≤ e ∧ e < 6 then
        if 0 ≤ e then
          let ip := ds.take (e.toNat + 1)
          let fp := stripZeros (ds.drop (e.toNat + 1))
          ip ++ (if fp.isEmpty then [] else '.' :: fp)
        else
          '0' :: '.' :: (List.replicate (e.natAbs - 1) '0' ++ stripZeros ds)
      else
        let fp := stripZeros (ds.drop 1)
        let ex := natRepr e.natAbs
        ds.take 1 ++ (if fp.isEmpty then [] else '.' :: fp) ++
          ('e' :: (if e < 0 then '-' else '+') :: (if ex.length = 1 then '0' :: ex else ex)))

/-- One row as written by the source (lines 184-186, 201-203):
`std::ostream_iterator<double>(out, " ")` renders every value followed by one
space, then `std::endl` appends the line terminator. -/
def rowText (row : List Dec) : List Char :=
  (row.map (fun v => printDouble v ++ [' '])).flatten ++ ['\n']

/-- The outcome of a run: the files opened (with the content written to
each, in open order) and the error that aborted the run, if any.  Files
already written before a failure remain listed (partial output is not rolled
back). -/
structure RunResult where
  files : List (List Char × List Char)
  error : Option ConvError
  deriving DecidableEq, Repr

/-- Per-row writing loop (source lines 175-192): for each row open the file
named by the pattern parts and the 1-based row counter, write the row, and
abort with `writeError` as soon as the stream is not `good()`. -/
def writePerRow (pre suf : List Char) (good : List Char → Nat → Bool) :
    Nat → List (List Dec) → RunResult
  | _, [] => ⟨[], none⟩
  | n, row :: rest =>
    let fname := rowFileName pre suf n
    if good fname n then
      let r := writePerRow pre suf good (n + 1) rest
      ⟨(fname, rowText row) :: r.files, r.error⟩
    else ⟨[(fname, rowText row)], some (.writeError n fname)⟩

/-- Single-file writing loop (source lines 196-209): append each row to the
one output file, aborting with `writeError` when the stream goes bad. -/
def writeSingleAux (path : List Char) (good : List Char → Nat → Bool) :
    Nat → List Char → List (List Dec) → List Char × Option ConvError
  | _, acc, [] => (acc, none)
  | n, acc, row :: rest =>
    let acc₂ := acc ++ rowText row
    if good path n then writeSingleAux path good (n + 1) acc₂ rest
    else (acc₂, some (.writeError n path))

/-- Single-file mode: the one output file is opened (created/truncated)
before the loop and receives all rows in order. -/
def writeSingle (path : List Char) (good : List Char → Nat → Bool)
    (m : List (List Dec)) : RunResult :=
  let r := writeSingleAux path good 1 [] m
  ⟨[(path, r.1)], r.2⟩

/-- The five inputs captured from the UI (source lines 81-90). -/
structure Request where
  inputFileName : List Char
  shallTranspose : Bool
  shallCreateFileForEachRow : Bool
  outputFileNames : List Char
  replaceString : List Char

/-- Parsing followed by validation, the pipeline prefix shared by both
writing modes. -/
def parsedMatrix (file content : List Char) : Except ConvError (List (List Dec)) :=
  match parseMatrix file content with
  | .error e => .error e
  | .ok rows => validateRows file rows

/-- The conversion pipeline of `MainWindow::runConversion` (source lines
92-210), given the input file's text content and the stream-health oracle:
parse, validate, optionally transpose, then write either one file per row
(planning the names from the pattern) or a single file. -/
def runConversion (req : Request) (content : List Char)
    (good : List Char → Nat → Bool) : RunResult :=
  match parsedMatrix req.inputFileName content with
  | .error e => ⟨[], some e⟩
  | .ok m₀ =>
    let m := if req.shallTranspose then transpose m₀ else m₀
    if req.shallCreateFileForEachRow then
      match planOutput req.replaceString req.outputFileNames with
      | .error e => ⟨[], some e⟩
      | .ok (pre, suf) => writePerRow pre suf good 1 m
    else writeSingle req.outputFileNames good m

/-! ## Lemmas about `natRepr` -/


theorem natReprAux_congr : ∀ (a : Nat), ∀ f₁ f₂, a < f₁ → a < f₂ →
    natReprAux f₁ a = natReprAux f₂ a := by
  intro a
  induction a using Nat.strong_induction_on with
  | _ a ih =>
    intro f₁ f₂ h₁ h₂
    match f₁, f₂ with
    | g₁ + 1, g₂ + 1 =>
      simp only [natReprAux]
      by_cases h10 : a < 10
      · simp [h10]
      · have hd : a / 10 < a := Nat.div_lt_self (by omega) (by omega)
        simp only [h10, if_false]
        rw [ih (a / 10) hd g₁ g₂ (by omega) (by omega)]

theorem natRepr_unfold (n : Nat) :
    natRepr n = if n < 10 then [Nat.digitChar n]
      else natRepr (n / 10) ++ [Nat.digitChar (n % 10)] := by
  by_cases h10 : n < 10
  · simp [natRepr, natReprAux, h10]
  · have hd : n / 10 < n := Nat.div_lt_self (by omega) (by omega)
    have step : natReprAux (n + 1) n = natReprAux n (n / 10) ++ [Nat.digitChar (n % 10)] := by
      simp only [natReprAux, h10, if_false]
    simp only [natRepr, h10, if_false, step]
    rw [natReprAux_congr (n / 10) n (n / 10 + 1) hd (Nat.lt_succ_self _)]

theorem natRepr_ne_nil (n : Nat) : natRepr n ≠ [] := by
  rw [natRepr_unfold]
  by_cases h10 : n < 10 <;> simp [h10]

theorem digitChar_inj_lt : ∀ a < 10, ∀ b < 10, Nat.digitChar a = Nat.digitChar b → a = b := by
  decide

theorem append_singleton_inj {α : Type} {xs ys : List α} {x y : α}
    (h : xs ++ [x] = ys ++ [y]) : xs = ys ∧ x = y := by
  have h₂ := congrArg List.reverse h
  simp only [List.reverse_append, List.reverse_cons, List.reverse_nil, List.nil_append,
    List.singleton_append] at h₂
  obtain ⟨h₃, h₄⟩ := List.cons.inj h₂
  exact ⟨by simpa using congrArg List.reverse h₄, h₃⟩

theorem natRepr_inj : ∀ (a b : Nat), natRepr a = natRepr b → a = b := by
  intro a
  induction a using Nat.strong_induction_on with
  | _ a ih =>
    intro b h
    rw [natRepr_unfold a, natRepr_unfold b] at h
    by_cases ha : a < 10 <;> by_cases hb : b < 10
    · simp only [ha, hb, if_true, List.cons.injEq] at h
      exact digitChar_inj_lt a ha b hb h.1
    · exfalso
      simp only [ha, hb, if_true, if_false] at h
      have hlen := congrArg List.length h
      simp only [List.length_cons, List.length_append, List.length_nil] at hlen
      exact natRepr_ne_nil (b / 10) (List.length_eq_zero.mp (by omega))
    · exfalso
      simp only [ha, hb, if_true, if_false] at h
      have hlen := congrArg List.length h
      simp only [List.length_cons, List.length_append, List.length_nil] at hlen
      exact natRepr_ne_nil (a / 10) (List.length_eq_zero.mp (by omega))
    · simp only [ha, hb, if_false] at h
      obtain ⟨h₁, h₂⟩ := append_singleton_inj h
      have hda : a / 10 < a := Nat.div_lt_self (by omega) (by omega)
      have e₁ : a / 10 = b / 10 := ih (a / 10) hda (b / 10) h₁
      have e₂ : a % 10 = b % 10 :=
        digitChar_inj_lt (a % 10) (Nat.mod_lt a (by omega)) (b % 10) (Nat.mod_lt b (by omega)) h₂
      omega

theorem rowFileName_inj (pre suf : List Char) {a b : Nat}
    (h : rowFileName pre suf a = rowFileName pre suf b) : a = b := by
  unfold rowFileName at h
  exact natRepr_inj a b (List.append_cancel_left (List.append_cancel_right h))

/-! ## Lemmas about the substring search and the output planner -/

theorem isPrefixOf_eq_true_iff : ∀ (l₁ l₂ : List Char),
    l₁.isPrefixOf l₂ = true ↔ ∃ t, l₂ = l₁ ++ t := by
  intro l₁
  induction l₁ with
  | nil => intro l₂; simp [List.isPrefixOf]
  | cons c cs ih =>
    intro l₂
    cases l₂ with
    | nil => simp [List.isPrefixOf]
    | cons d ds =>
      simp only [List.isPrefixOf, Bool.and_eq_true, beq_iff_eq, ih, List.cons_append,
        List.cons.injEq]
      constructor
      · rintro ⟨hcd, t, ht⟩; exact ⟨t, hcd.symm, ht⟩
      · rintro ⟨t, hcd, ht⟩; exact ⟨hcd.symm, t, ht⟩

theorem findBoyerMoore_eq_some (needle : List Char) : ∀ (hay : List Char) (p : Nat),
    findBoyerMoore needle hay = some p →
    needle.isPrefixOf (hay.drop p) = true ∧
      ∀ q < p, needle.isPrefixOf (hay.drop q) = false := by
  intro hay
  induction hay with
  | nil =>
    intro p h
    unfold findBoyerMoore at h
    split at h
    · rename_i hpre
      obtain rfl : 0 = p := by simpa using h
      exact ⟨hpre, by omega⟩
    · exact absurd h (by simp)
  | cons a t ih =>
    intro p h
    unfold findBoyerMoore at h
    split at h
    · rename_i hpre
      obtain rfl : 0 = p := by simpa using h
      exact ⟨hpre, by omega⟩
    · rename_i hpre
      simp only [Option.map_eq_some'] at h
      obtain ⟨p₀, hp₀, rfl⟩ := h
      obtain ⟨h₁, h₂⟩ := ih p₀ hp₀
      refine ⟨by simpa using h₁, ?_⟩
      intro q hq
      cases q with
      | zero => simpa using Bool.of_not_eq_true hpre
      | succ q₀ => simpa using h₂ q₀ (by omega)

theorem findBoyerMoore_isSome (needle : List Char) : ∀ (hay : List Char) (q : Nat),
    needle.isPrefixOf (hay.drop q) = true → (findBoyerMoore needle hay).isSome = true := by
  intro hay
  induction hay with
  | nil =>
    intro q h
    simp only [List.drop_nil] at h
    unfold findBoyerMoore
    have : needle.isPrefixOf ([] : List Char) = true := h
    simp [this]
  | cons a t ih =>
    intro q h
    unfold findBoyerMoore
    split
    · simp
    · cases q with
      | zero => rename_i hpre; exact absurd h hpre
      | succ q₀ =>
        simp only [List.drop_succ_cons] at h
        have := ih q₀ h
        simpa using this

/-! ## Lemmas about the transpose step -/

/-- Column `j` of a matrix (out-of-range entries default). -/
def colAt (m : List (List Dec)) (j : Nat) : List Dec := m.map (fun r => r.getD j ⟨0, 0⟩)

theorem getD_map_range {α : Type} (f : Nat → α) (n j : Nat) (d : α) :
    ((List.range n).map f).getD j d = if j < n then f j else d := by
  by_cases h : j < n
  · rw [List.getD_eq_getElem _ _ (by simpa using h)]
    simp [h]
  · rw [List.getD_eq_default _ _ (by simpa using Nat.le_of_not_lt h)]
    simp [h]

theorem map_getD_range_self {α : Type} (l : List α) (d : α) :
    (List.range l.length).map (fun j => l.getD j d) = l := by
  apply List.ext_getElem (by simp)
  intro i h₁ h₂
  simp only [List.getElem_map, List.getElem_range]
  exact List.getD_eq_getElem l d h₂

theorem pushRow_eq (row : List Dec) : ∀ (t : List (List Dec)), row.length = t.length →
    pushRow row t =
      (List.range t.length).map (fun j => t.getD j [] ++ [row.getD j ⟨0, 0⟩]) := by
  induction row with
  | nil =>
    intro t h
    cases t with
    | nil => simp [pushRow]
    | cons c cs => simp at h
  | cons x xs ih =>
    intro t h
    cases t with
    | nil => simp at h
    | cons c cs =>
      simp only [pushRow]
      have hlen : xs.length = cs.length := by simpa using h
      rw [ih cs hlen, List.length_cons, List.range_succ_eq_map]
      simp [List.map_map, Function.comp_def]

theorem foldl_pushRow (m : List (List Dec)) : ∀ (t : List (List Dec)),
    (∀ row ∈ m, row.length = t.length) →
    m.foldl (fun acc row => pushRow row acc) t =
      (List.range t.length).map (fun j => t.getD j [] ++ colAt m j) := by
  induction m with
  | nil =>
    intro t h
    simp only [List.foldl_nil, colAt, List.map_nil, List.append_nil]
    exact (map_getD_range_self t []).symm
  | cons row m₂ ih =>
    intro t h
    simp only [List.foldl_cons]
    have hrow : row.length = t.length := h row (by simp)
    have hlen : (pushRow row t).length = t.length := by
      rw [pushRow_eq row t hrow]; simp
    have h₂ : ∀ r ∈ m₂, r.length = (pushRow row t).length := by
      intro r hr; rw [hlen]; exact h r (by simp [hr])
    rw [ih (pushRow row t) h₂, hlen]
    apply List.map_congr_left
    intro j hj
    rw [List.mem_range] at hj
    rw [pushRow_eq row t hrow, getD_map_range]
    simp [hj, colAt]

theorem transpose_eq_cols (m : List (List Dec)) (C : Nat)
    (hC : ∀ row ∈ m, row.length = C) (hne : m ≠ []) :
    transpose m = (List.range C).map (colAt m) := by
  unfold transpose
  have hhead : (m.headD []).length = C := by
    cases m with
    | nil => exact absurd rfl hne
    | cons r rs => exact hC r (by simp)
  rw [hhead]
  rw [foldl_pushRow m (List.replicate C []) (by intro row hr; simp [hC row hr])]
  simp only [List.length_replicate]
  apply List.map_congr_left
  intro j hj
  rw [List.mem_range] at hj
  rw [List.getD_eq_getElem _ _ (by simpa using hj)]
  simp

theorem transpose_length (m : List (List Dec)) (C : Nat)
    (hC : ∀ row ∈ m, row.length = C) (hne : m ≠ []) :
    (transpose m).length = C := by
  rw [transpose_eq_cols m C hC hne]; simp

theorem transpose_row_length (m : List (List Dec)) (C : Nat)
    (hC : ∀ row ∈ m, row.length = C) (hne : m ≠ []) :
    ∀ row ∈ transpose m, row.length = m.length := by
  intro row hr
  rw [transpose_eq_cols m C hC hne] at hr
  simp only [List.mem_map, List.mem_range] at hr
  obtain ⟨j, hj, rfl⟩ := hr
  simp [colAt]

theorem transpose_entry (m : List (List Dec)) (C : Nat)
    (hC : ∀ row ∈ m, row.length = C) (hne : m ≠ []) (i j : Nat)
    (hi : i < m.length) (hj : j < C) :
    ((transpose m).getD j []).getD i ⟨0, 0⟩ = (m.getD i []).getD j ⟨0, 0⟩ := by
  rw [transpose_eq_cols m C hC hne, getD_map_range, if_pos hj]
  unfold colAt
  rw [List.getD_eq_getElem _ _ (by simpa using hi), List.getElem_map,
    List.getD_eq_getElem m [] hi]

theorem transpose_involutive (m : List (List Dec)) (C : Nat)
    (hC : ∀ row ∈ m, row.length = C) (hne : m ≠ []) (hCpos : 0 < C) :
    transpose (transpose m) = m := by
  have h₁ : transpose m = (List.range C).map (colAt m) := transpose_eq_cols m C hC hne
  have hTlen : ∀ row ∈ transpose m, row.length = m.length :=
    transpose_row_length m C hC hne
  have hTne : transpose m ≠ [] := by
    rw [h₁]
    intro hcon
    have := congrArg List.length hcon
    simp at this
    omega
  rw [transpose_eq_cols (transpose m) m.length hTlen hTne]
  apply List.ext_getElem (by simp)
  intro i h₂ h₃
  simp only [List.getElem_map, List.getElem_range]
  have hmem : m[i] ∈ m := List.getElem_mem h₃
  have hilen : (m[i]).length = C := hC _ hmem
  unfold colAt
  rw [h₁]
  simp only [List.map_map]
  have hstep : ∀ j ∈ List.range C,
      ((fun r => r.getD i ⟨0, 0⟩) ∘ colAt m) j = (m[i]).getD j ⟨0, 0⟩ := by
    intro j hj
    simp only [Function.comp_apply]
    unfold colAt
    rw [List.getD_eq_getElem _ _ (by simpa using h₃), List.getElem_map]
  rw [List.map_congr_left hstep]
  calc (List.range C).map (fun j => (m[i]).getD j ⟨0, 0⟩)
      = (List.range (m[i]).length).map (fun j => (m[i]).getD j ⟨0, 0⟩) := by rw [hilen]
    _ = m[i] := map_getD_range_self _ _

/-! ## Lemmas about parsing -/

theorem parseMatrixAux_error_iff (file : List Char) :
    ∀ (lines : List (List Char)) (i : Nat) (e : ConvError),
    (parseMatrixAux file i lines = .error e ↔
      ∃ j, j < lines.length ∧ e = .parseError (i + j) file ∧
        (parseLine (lines.getD j [])).2 = true ∧
        ∀ l, l < j → (parseLine (lines.getD l [])).2 = false) := by
  intro lines
  induction lines with
  | nil =>
    intro i e
    simp [parseMatrixAux]
  | cons hd tl ih =>
    intro i e
    simp only [parseMatrixAux]
    by_cases hl : (parseLine hd).2 = true
    · rw [if_pos hl]
      constructor
      · intro h
        simp only [Except.error.injEq] at h
        subst h
        exact ⟨0, by simp, by simp, by simpa using hl, by omega⟩
      · rintro ⟨j, hj, he, hbad, hmin⟩
        have hj0 : j = 0 := by
          by_contra hne0
          have h₀ := hmin 0 (by omega)
          rw [List.getD_cons_zero] at h₀
          rw [hl] at h₀
          simp at h₀
        subst hj0
        simp only [Nat.add_zero] at he
        rw [he]
    · rw [if_neg hl]
      have hlf : (parseLine hd).2 = false := by simpa using hl
      rcases hrec : parseMatrixAux file (i + 1) tl with e₂ | rows
      · rw [ih (i + 1) e₂] at hrec
        obtain ⟨j₂, hj₂, he₂, hbad₂, hmin₂⟩ := hrec
        simp only [Except.error.injEq]
        constructor
        · rintro rfl
          refine ⟨j₂ + 1, by simp; omega, ?_, by simpa using hbad₂, ?_⟩
          · rw [he₂]; congr 1; omega
          · intro l hli
            cases l with
            | zero => simpa using hlf
            | succ l₂ => simpa using hmin₂ l₂ (by omega)
        · rintro ⟨j, hj, he, hbad, hmin⟩
          cases j with
          | zero =>
            rw [List.getD_cons_zero, hlf] at hbad
            exact absurd hbad Bool.false_ne_true
          | succ j₃ =>
            rw [List.getD_cons_succ] at hbad
            have hj₃ : j₃ = j₂ := by
              by_contra hne
              rcases Nat.lt_or_ge j₃ j₂ with hlt | hge
              · have := hmin₂ j₃ hlt
                rw [this] at hbad
                exact Bool.false_ne_true hbad
              · have hgt : j₂ < j₃ := by omega
                have := hmin (j₂ + 1) (by omega)
                rw [List.getD_cons_succ] at this
                rw [this] at hbad₂
                exact Bool.false_ne_true hbad₂
            subst hj₃
            rw [he₂, he]
            congr 1
            omega
      · constructor
        · intro h
          exact absurd h (by simp)
        · rintro ⟨j, hj, he, hbad, hmin⟩
          exfalso
          cases j with
          | zero =>
            rw [List.getD_cons_zero, hlf] at hbad
            exact Bool.false_ne_true hbad
          | succ j₃ =>
            have hok : parseMatrixAux file (i + 1) tl = .error (.parseError (i + (j₃ + 1)) file) := by
              rw [ih (i + 1) (.parseError (i + (j₃ + 1)) file)]
              refine ⟨j₃, by simpa using hj, by congr 1; omega, by simpa using hbad, ?_⟩
              intro l hli
              have := hmin (l + 1) (by omega)
              simpa using this
            rw [hok] at hrec
            exact absurd hrec (by simp)

theorem parseMatrixAux_error_shape (file : List Char) (lines : List (List Char))
    (i : Nat) (e : ConvError) (h : parseMatrixAux file i lines = .error e) :
    ∃ n, e = .parseError n file := by
  rw [parseMatrixAux_error_iff file lines i e] at h
  obtain ⟨j, -, he, -, -⟩ := h
  exact ⟨i + j, he⟩

theorem parseLine_all_space (l : List Char) (h : ∀ c ∈ l, isSpaceCpp c = true) :
    parseLine l = ([], false) := by
  have hdrop : l.dropWhile isSpaceCpp = [] := by
    rw [List.dropWhile_eq_nil_iff]
    intro x hx
    exact h x hx
  unfold parseLine parseLineAux
  rw [hdrop]
  simp

/-! ## Lemmas about validation -/

theorem firstMismatch_eq_none_iff (w : Nat) : ∀ (m : List (List Dec)) (i : Nat),
    firstMismatch w i m = none ↔ ∀ r ∈ m, r.length = w := by
  intro m
  induction m with
  | nil => intro i; simp [firstMismatch]
  | cons r rs ih =>
    intro i
    simp only [firstMismatch]
    by_cases hr : r.length = w
    · simp only [hr, ne_eq, not_true_eq_false, if_false, ih (i + 1), List.mem_cons]
      constructor
      · rintro hall x (rfl | hx)
        · exact hr
        · exact hall x hx
      · intro hall x hx
        exact hall x (Or.inr hx)
    · simp only [hr, ne_eq, not_false_eq_true, if_true]
      constructor
      · intro hcon
        exact absurd hcon (by simp)
      · intro hall
        exact absurd (hall r (by simp)) hr

theorem firstMismatch_eq_some_iff (w : Nat) : ∀ (m : List (List Dec)) (i n : Nat),
    firstMismatch w i m = some n ↔
      ∃ j, j < m.length ∧ n = i + j ∧ (m.getD j []).length ≠ w ∧
        ∀ l, l < j → (m.getD l []).length = w := by
  intro m
  induction m with
  | nil => intro i n; simp [firstMismatch]
  | cons r rs ih =>
    intro i n
    simp only [firstMismatch]
    by_cases hr : r.length = w
    · simp only [hr, ne_eq, not_true_eq_false, if_false, ih (i + 1) n]
      constructor
      · rintro ⟨j, hj, hn, hbad, hmin⟩
        refine ⟨j + 1, by simp; omega, by omega, by simpa using hbad, ?_⟩
        intro l hl
        cases l with
        | zero => simpa using hr
        | succ l₂ => simpa using hmin l₂ (by omega)
      · rintro ⟨j, hj, hn, hbad, hmin⟩
        cases j with
        | zero =>
          rw [List.getD_cons_zero] at hbad
          exact absurd hr hbad
        | succ j₂ =>
          refine ⟨j₂, by simpa using hj, by omega, by simpa using hbad, ?_⟩
          intro l hl
          have := hmin (l + 1) (by omega)
          simpa using this
    · simp only [hr, ne_eq, not_false_eq_true, if_true, Option.some.injEq]
      constructor
      · rintro rfl
        exact ⟨0, by simp, by omega, by simpa using hr, by omega⟩
      · rintro ⟨j, hj, hn, hbad, hmin⟩
        have hj0 : j = 0 := by
          by_contra hne
          have := hmin 0 (by omega)
          rw [List.getD_cons_zero] at this
          exact hr this
        subst hj0
        omega

theorem validateRows_ok (file : List Char) (rows m : List (List Dec))
    (h : validateRows file rows = .ok m) :
    m = rows.filter (fun r => !r.isEmpty) ∧ m ≠ [] ∧
      ∀ r ∈ m, r.length = (m.headD []).length := by
  unfold validateRows at h
  by_cases hemp : (rows.filter (fun r => !r.isEmpty)).isEmpty
  · rw [if_pos hemp] at h
    exact absurd h (by simp)
  · rw [if_neg hemp] at h
    rcases hfm : firstMismatch (((rows.filter (fun r => !r.isEmpty)).headD []).length) 1
        (rows.filter (fun r => !r.isEmpty)) with - | n
    · simp only [hfm, Except.ok.injEq] at h
      subst h
      refine ⟨rfl, by simpa using hemp, ?_⟩
      rw [firstMismatch_eq_none_iff] at hfm
      exact hfm
    · simp only [hfm] at h
      exact absurd h (by simp)

theorem validateRows_emptyMatrix_iff (file : List Char) (rows : List (List Dec)) :
    validateRows file rows = .error (.emptyMatrixError file) ↔
      ∀ r ∈ rows, r = [] := by
  unfold validateRows
  by_cases hemp : (rows.filter (fun r => !r.isEmpty)).isEmpty
  · rw [if_pos hemp]
    simp only [List.isEmpty_iff, List.filter_eq_nil_iff] at hemp
    constructor
    · intro _ r hr
      have := hemp r hr
      simpa using this
    · intro _; rfl
  · rw [if_neg hemp]
    simp only [List.isEmpty_iff, List.filter_eq_nil_iff] at hemp
    push_neg at hemp
    obtain ⟨r, hr, hrne⟩ := hemp
    have hrne₂ : r ≠ [] := by simpa using hrne
    rcases hfm : firstMismatch (((rows.filter (fun r => !r.isEmpty)).headD []).length) 1
        (rows.filter (fun r => !r.isEmpty)) with - | n
    · simp only [hfm]
      constructor
      · intro hcon
        exact absurd hcon (by simp)
      · intro hall
        exact absurd (hall r hr) hrne₂
    · simp only [hfm]
      constructor
      · intro hcon
        simp only [Except.error.injEq] at hcon
        exact absurd hcon (by simp)
      · intro hall
        exact absurd (hall r hr) hrne₂

theorem validateRows_ragged_iff (file : List Char) (rows : List (List Dec)) (n : Nat) :
    validateRows file rows = .error (.raggedRowError n) ↔
      (¬ (rows.filter (fun r => !r.isEmpty)).isEmpty ∧
        firstMismatch (((rows.filter (fun r => !r.isEmpty)).headD []).length) 1
          (rows.filter (fun r => !r.isEmpty)) = some n) := by
  unfold validateRows
  by_cases hemp : (rows.filter (fun r => !r.isEmpty)).isEmpty
  · rw [if_pos hemp]
    simp [hemp]
  · rw [if_neg hemp]
    rcases hfm : firstMismatch (((rows.filter (fun r => !r.isEmpty)).headD []).length) 1
        (rows.filter (fun r => !r.isEmpty)) with - | n₂
    · simp only [hfm]
      constructor
      · intro hcon
        exact absurd hcon (by simp)
      · rintro ⟨-, hcon⟩
        exact absurd hcon (by simp)
    · simp only [hfm, Except.error.injEq, Option.some.injEq]
      constructor
      · intro h
        exact ⟨hemp, (ConvError.raggedRowError.inj h.symm).symm⟩
      · rintro ⟨-, rfl⟩
        rfl

theorem validateRows_error_shape (file : List Char) (rows : List (List Dec))
    (e : ConvError) (h : validateRows file rows = .error e) :
    e = .emptyMatrixError file ∨ ∃ n, e = .raggedRowError n := by
  unfold validateRows at h
  by_cases hemp : (rows.filter (fun r => !r.isEmpty)).isEmpty
  · rw [if_pos hemp] at h
    simp only [Except.error.injEq] at h
    exact Or.inl h.symm
  · rw [if_neg hemp] at h
    rcases hfm : firstMismatch (((rows.filter (fun r => !r.isEmpty)).headD []).length) 1
        (rows.filter (fun r => !r.isEmpty)) with - | n
    · rw [hfm] at h; exact absurd h (by simp)
    · rw [hfm] at h
      simp only [Except.error.injEq] at h
      exact Or.inr ⟨n, h.symm⟩

/-! ## Lemmas about the writers -/

theorem map_range_succ_shift {α : Type} (g : Nat → α) (N : Nat) :
    (List.range (N + 1)).map g = g 0 :: (List.range N).map (fun k => g (k + 1)) := by
  rw [List.range_succ_eq_map]
  simp [List.map_map, Function.comp_def, Nat.succ_eq_add_one]

theorem writePerRow_allGood (pre suf : List Char) : ∀ (m : List (List Dec)) (n : Nat),
    writePerRow pre suf (fun _ _ => true) n m =
      ⟨(List.range m.length).map
        (fun k => (rowFileName pre suf (n + k), rowText (m.getD k []))), none⟩ := by
  intro m
  induction m with
  | nil => intro n; simp [writePerRow]
  | cons row rest ih =>
    intro n
    simp only [writePerRow, if_true]
    rw [ih (n + 1)]
    simp only [List.length_cons, List.range_succ_eq_map, List.map_cons, List.map_map,
      RunResult.mk.injEq, and_true, Nat.add_zero, List.getD_cons_zero, List.cons.injEq,
      true_and]
    apply List.map_congr_left
    intro k hk
    simp only [Function.comp_apply, List.getD_cons_succ, Nat.succ_eq_add_one]
    have harith : n + (k + 1) = n + 1 + k := by omega
    rw [harith]

theorem writePerRow_fail (pre suf : List Char) (good : List Char → Nat → Bool) :
    ∀ (m : List (List Dec)) (n₀ n : Nat), n₀ ≤ n → n < n₀ + m.length →
    (∀ k, n₀ ≤ k → k < n → good (rowFileName pre suf k) k = true) →
    good (rowFileName pre suf n) n = false →
    writePerRow pre suf good n₀ m =
      ⟨(List.range (n - n₀ + 1)).map
        (fun k => (rowFileName pre suf (n₀ + k), rowText (m.getD k []))),
       some (.writeError n (rowFileName pre suf n))⟩ := by
  intro m
  induction m with
  | nil =>
    intro n₀ n h₁ h₂ _ _
    simp only [List.length_nil] at h₂
    omega
  | cons row rest ih =>
    intro n₀ n h₁ h₂ hgood hfail
    by_cases hn : n = n₀
    · subst hn
      simp only [writePerRow, hfail, if_false]
      have : n - n + 1 = 1 := by omega
      rw [this]
      simp [List.range_succ_eq_map]
    · have hlt : n₀ < n := by omega
      have hg : good (rowFileName pre suf n₀) n₀ = true := hgood n₀ (le_refl n₀) hlt
      simp only [writePerRow, hg, if_true]
      rw [ih (n₀ + 1) n (by omega) (by simp only [List.length_cons] at h₂; omega)
        (fun k hk₁ hk₂ => hgood k (by omega) hk₂) hfail]
      have hsplit : n - n₀ + 1 = (n - (n₀ + 1) + 1) + 1 := by omega
      rw [hsplit, map_range_succ_shift (fun k => (rowFileName pre suf (n₀ + k),
        rowText ((row :: rest).getD k []))) (n - (n₀ + 1) + 1)]
      simp only [Nat.add_zero, List.getD_cons_zero, RunResult.mk.injEq, List.cons.injEq,
        true_and, and_true]
      apply List.map_congr_left
      intro k hk
      simp only [List.getD_cons_succ]
      have harith : n₀ + (k + 1) = n₀ + 1 + k := by omega
      rw [harith]

theorem writePerRow_names_distinct (pre suf : List Char) (N : Nat) :
    ((List.range N).map (fun k => rowFileName pre suf (1 + k))).Pairwise
      (fun a b => a ≠ b) := by
  refine List.Pairwise.map _ ?_ (List.pairwise_lt_range N)
  intro a b hab hcon
  have := rowFileName_inj pre suf hcon
  omega

theorem writeSingleAux_allGood (path : List Char) : ∀ (m : List (List Dec)) (n : Nat)
    (acc : List Char),
    writeSingleAux path (fun _ _ => true) n acc m =
      (acc ++ (m.map rowText).flatten, none) := by
  intro m
  induction m with
  | nil => intro n acc; simp [writeSingleAux]
  | cons row rest ih =>
    intro n acc
    simp only [writeSingleAux, if_true]
    rw [ih (n + 1)]
    simp

theorem writeSingleAux_error_shape (path : List Char) (good : List Char → Nat → Bool) :
    ∀ (m : List (List Dec)) (n : Nat) (acc : List Char) (e : ConvError),
    (writeSingleAux path good n acc m).2 = some e → ∃ k, e = .writeError k path := by
  intro m
  induction m with
  | nil => intro n acc e h; simp [writeSingleAux] at h
  | cons row rest ih =>
    intro n acc e h
    simp only [writeSingleAux] at h
    by_cases hg : good path n = true
    · rw [if_pos hg] at h
      exact ih (n + 1) _ e h
    · rw [if_neg hg] at h
      simp only [Option.some.injEq] at h
      exact ⟨n, h.symm⟩

/-! ## Lemmas about line splitting -/

theorem extractByLineAux_chars : ∀ (fuel : Nat) (cs l : List Char),
    l ∈ extractByLineAux fuel cs → ∀ c ∈ l, c ∈ cs := by
  intro fuel
  induction fuel with
  | zero => intro cs l hl; simp [extractByLineAux] at hl
  | succ f ih =>
    intro cs l hl c hc
    simp only [extractByLineAux] at hl
    by_cases hemp : cs.isEmpty
    · rw [if_pos hemp] at hl
      simp at hl
    · rw [if_neg hemp] at hl
      rcases hdrop : cs.dropWhile (fun c => c != '\n') with - | ⟨d, rest⟩
      · rw [hdrop] at hl
        simp only [List.mem_singleton] at hl
        subst hl
        exact ((List.takeWhile_sublist _).subset) hc
      · rw [hdrop] at hl
        rcases List.mem_cons.mp hl with rfl | hl₂
        · exact ((List.takeWhile_sublist _).subset) hc
        · have hsub : rest ⊆ cs := by
            intro x hx
            have h₁ : x ∈ cs.dropWhile (fun c => c != '\n') := by
              rw [hdrop]; exact List.mem_cons_of_mem d hx
            exact ((List.dropWhile_sublist _).subset) h₁
          exact hsub (ih rest l hl₂ c hc)

theorem extractByLine_chars (content l : List Char) (hl : l ∈ extractByLine content) :
    ∀ c ∈ l, c ∈ content := extractByLineAux_chars _ content l hl

/-! ## Remaining support lemmas -/

theorem parseMatrixAux_ok_of_all (file : List Char) : ∀ (lines : List (List Char)) (i : Nat),
    (∀ l ∈ lines, (parseLine l).2 = false) →
    parseMatrixAux file i lines = .ok (lines.map (fun l => (parseLine l).1)) := by
  intro lines
  induction lines with
  | nil => intro i _; simp [parseMatrixAux]
  | cons hd tl ih =>
    intro i h
    have hhd : (parseLine hd).2 = false := h hd (by simp)
    simp only [parseMatrixAux, hhd]
    rw [ih (i + 1) (fun l hl => h l (by simp [hl]))]
    simp

theorem parsedMatrix_error_shape (file content : List Char) (e : ConvError)
    (h : parsedMatrix file content = .error e) :
    (∃ n, e = .parseError n file) ∨ e = .emptyMatrixError file ∨
      ∃ n, e = .raggedRowError n := by
  unfold parsedMatrix at h
  rcases hpm : parseMatrix file content with e₂ | rows
  · rw [hpm] at h
    simp only [Except.error.injEq] at h
    subst h
    exact Or.inl (parseMatrixAux_error_shape file (extractByLine content) 1 e₂ hpm)
  · rw [hpm] at h
    exact Or.inr (validateRows_error_shape file rows e h)

/-! ## The claims -/

/-- C2: for every rectangular R×C matrix (as validation guarantees), the
transpose step yields a C×R matrix with `output[j][i] = input[i][j]` for all
valid `i`, `j`. -/
theorem c2_transpose_law (m : List (List Dec)) (R C : Nat) (hR : m.length = R)
    (hC : ∀ row ∈ m, row.length = C) (hne : m ≠ []) :
    (transpose m).length = C ∧ (∀ row ∈ transpose m, row.length = R) ∧
    ∀ i j, i < R → j < C →
      ((transpose m).getD j []).getD i ⟨0, 0⟩ = (m.getD i []).getD j ⟨0, 0⟩ := by
  subst hR
  exact ⟨transpose_length m C hC hne, transpose_row_length m C hC hne,
    fun i j hi hj => transpose_entry m C hC hne i j hi hj⟩

theorem c2_witness :
    (transpose [[(⟨1, 0⟩ : Dec), ⟨2, 0⟩, ⟨3, 0⟩], [⟨4, 0⟩, ⟨5, 0⟩, ⟨6, 0⟩]]).length = 3 ∧
    (∀ row ∈ transpose [[(⟨1, 0⟩ : Dec), ⟨2, 0⟩, ⟨3, 0⟩], [⟨4, 0⟩, ⟨5, 0⟩, ⟨6, 0⟩]],
      row.length = 2) ∧
    ∀ i j, i < 2 → j < 3 →
      ((transpose [[(⟨1, 0⟩ : Dec), ⟨2, 0⟩, ⟨3, 0⟩], [⟨4, 0⟩, ⟨5, 0⟩, ⟨6, 0⟩]]).getD j
        []).getD i ⟨0, 0⟩ =
      (([[(⟨1, 0⟩ : Dec), ⟨2, 0⟩, ⟨3, 0⟩], [⟨4, 0⟩, ⟨5, 0⟩, ⟨6, 0⟩]]).getD i []).getD j
        ⟨0, 0⟩ :=
  c2_transpose_law [[⟨1, 0⟩, ⟨2, 0⟩, ⟨3, 0⟩], [⟨4, 0⟩, ⟨5, 0⟩, ⟨6, 0⟩]] 2 3 rfl
    (by decide) (by decide)

/-- C3: for a non-empty token occurring in the pattern, the planner returns
the decomposition around the leftmost occurrence, and the per-row filename is
`prefix ++ toString i ++ suffix`. -/
theorem c3_output_planner (pattern token : List Char) (q : Nat)
    (hne : token ≠ []) (hocc : token.isPrefixOf (pattern.drop q) = true) :
    ∃ pre suf, planOutput token pattern = .ok (pre, suf) ∧
      pattern = pre ++ token ++ suf ∧
      (∀ r, r < pre.length → token.isPrefixOf (pattern.drop r) = false) ∧
      ∀ i, rowFileName pre suf i = pre ++ natRepr i ++ suf := by
  have hsome := findBoyerMoore_isSome token pattern q hocc
  obtain ⟨p, hp⟩ := Option.isSome_iff_exists.mp hsome
  obtain ⟨h₁, h₂⟩ := findBoyerMoore_eq_some token pattern p hp
  obtain ⟨t, ht⟩ := (isPrefixOf_eq_true_iff token (pattern.drop p)).mp h₁
  have hplen : p ≤ pattern.length := by
    by_contra hcon
    rw [List.drop_of_length_le (by omega)] at ht
    cases token with
    | nil => exact hne rfl
    | cons c cs => simp at ht
  refine ⟨pattern.take p, pattern.drop (p + token.length), ?_, ?_, ?_, fun i => rfl⟩
  · unfold planOutput
    rw [if_neg (by simpa using hne), hp]
  · have hdrop : pattern.drop (p + token.length) = t := by
      have h₃ : pattern.drop (p + token.length) = (pattern.drop p).drop token.length := by
        rw [List.drop_drop]
      rw [h₃, ht, List.drop_left]
    conv_lhs => rw [← List.take_append_drop p pattern, ht]
    rw [hdrop, List.append_assoc]
  · intro r hr
    rw [List.length_take] at hr
    exact h₂ r (by omega)

theorem c3_witness :
    ∃ pre suf, planOutput "#".toList "out_#.txt".toList = .ok (pre, suf) ∧
      "out_#.txt".toList = pre ++ "#".toList ++ suf ∧
      (∀ r, r < pre.length → ("#".toList).isPrefixOf ("out_#.txt".toList.drop r) = false) ∧
      ∀ i, rowFileName pre suf i = pre ++ natRepr i ++ suf :=
  c3_output_planner "out_#.txt".toList "#".toList 4 (by decide) (by decide)

/-- C9 (counterexample): the transpose step is not involutive on every
rectangular matrix: a matrix of empty rows collapses to the empty matrix. -/
theorem c9_counterexample :
    transpose (transpose ([[], []] : List (List Dec))) ≠ [[], []] := by decide

/-- C9 (amended): the transpose step is involutive on every rectangular
matrix with at least one row and at least one column (as validation
guarantees). -/
theorem c9_transpose_involution (m : List (List Dec)) (C : Nat)
    (hC : ∀ row ∈ m, row.length = C) (hne : m ≠ []) (hCpos : 0 < C) :
    transpose (transpose m) = m :=
  transpose_involutive m C hC hne hCpos

theorem c9_witness :
    transpose (transpose [[(⟨1, 0⟩ : Dec), ⟨2, 0⟩, ⟨3, 0⟩], [⟨4, 0⟩, ⟨5, 0⟩, ⟨6, 0⟩]]) =
      [[(⟨1, 0⟩ : Dec), ⟨2, 0⟩, ⟨3, 0⟩], [⟨4, 0⟩, ⟨5, 0⟩, ⟨6, 0⟩]] :=
  c9_transpose_involution [[⟨1, 0⟩, ⟨2, 0⟩, ⟨3, 0⟩], [⟨4, 0⟩, ⟨5, 0⟩, ⟨6, 0⟩]] 3
    (by decide) (by decide) (by decide)

/-- C1 (counterexample): with input lines "1 2 3" and "4 5 6", transpose and
split off and output path "out.txt", the single output file's content is not
the claimed "1 2 3\n4 5 6\n" (each written value is followed by a space). -/
theorem c1_counterexample :
    (runConversion ⟨"in.txt".toList, false, false, "out.txt".toList, []⟩
        "1 2 3\n4 5 6\n".toList (fun _ _ => true)).files ≠
      [("out.txt".toList, "1 2 3\n4 5 6\n".toList)] := by decide

/-- C1 (amended): the run succeeds and writes the single file "out.txt" with
exact content "1 2 3 \n4 5 6 \n" (a space after every value, rows in
order). -/
theorem c1_single_file_output :
    runConversion ⟨"in.txt".toList, false, false, "out.txt".toList, []⟩
        "1 2 3\n4 5 6\n".toList (fun _ _ => true) =
      ⟨[("out.txt".toList, "1 2 3 \n4 5 6 \n".toList)], none⟩ := by decide

/-- C5 (counterexample): the line "1 ." carries the invalid trailing token
".", yet parsing succeeds with the single row `[1]`: the extractor consumes
"." to the end of the line, `eof` is reached, and the source's
`is.bad() || !is.eof()` test does not fire. -/
theorem c5_counterexample :
    parseMatrix "in.txt".toList "1 .".toList = .ok [[⟨1, 0⟩]] := rfl

/-- C5 (amended): parsing fails with `parseError` citing the 1-based line
number and the file iff some line's extraction fails with characters of the
line left unconsumed, and the cited line is the first such line; a line of
only whitespace yields the empty row and no error. -/
theorem c5_parse_error_characterization (file content : List Char) (e : ConvError) :
    (parseMatrix file content = .error e ↔
      ∃ j, j < (extractByLine content).length ∧ e = .parseError (1 + j) file ∧
        (parseLine ((extractByLine content).getD j [])).2 = true ∧
        ∀ l, l < j → (parseLine ((extractByLine content).getD l [])).2 = false) ∧
    (∀ l, (∀ c ∈ l, isSpaceCpp c = true) → parseLine l = ([], false)) :=
  ⟨parseMatrixAux_error_iff file (extractByLine content) 1 e,
    fun l h => parseLine_all_space l h⟩

theorem c5_witness :
    parseMatrix "f".toList "1 x".toList = .error (.parseError 1 "f".toList) ∧
    parseLine "  ".toList = ([], false) := by
  have h := c5_parse_error_characterization "f".toList "1 x".toList
    (.parseError 1 "f".toList)
  exact ⟨h.1.mpr ⟨0, by decide, by decide, by decide, by omega⟩,
    h.2 "  ".toList (by decide)⟩

/-- C6 (counterexample): on the ragged input "1\n2 3" from file "in.txt" the
run fails with the ragged-row error for row 2, but the surfaced error
carries only the row number: its message text does not contain the file path
"in.txt" (so no file, no expected count 1, no actual count 2). -/
theorem c6_counterexample :
    (runConversion ⟨"in.txt".toList, false, false, "out.txt".toList, []⟩
        "1\n2 3".toList (fun _ _ => true)).error = some (.raggedRowError 2) ∧
    (ConvError.raggedRowError 2).message =
      "Row 2of the matrix contains a different number of samples than the first row.".toList ∧
    findBoyerMoore "in.txt".toList (ConvError.raggedRowError 2).message = none := by
  decide

/-- C6 (amended): validation fails with the ragged-row error for 1-based
non-empty-row number `n` iff after dropping empty rows the matrix is
non-empty and row `n` is the first row whose length differs from the first
row's; the error carries only that row number, and its message is the fixed
text with no file path and no expected/actual column counts interpolated. -/
theorem c6_ragged_error (file : List Char) (rows : List (List Dec)) (n : Nat) :
    (validateRows file rows = .error (.raggedRowError n) ↔
      (¬ (rows.filter (fun r => !r.isEmpty)).isEmpty ∧
        ∃ j, j < (rows.filter (fun r => !r.isEmpty)).length ∧ n = 1 + j ∧
          ((rows.filter (fun r => !r.isEmpty)).getD j []).length ≠
            ((rows.filter (fun r => !r.isEmpty)).headD []).length ∧
          ∀ l, l < j → ((rows.filter (fun r => !r.isEmpty)).getD l []).length =
            ((rows.filter (fun r => !r.isEmpty)).headD []).length)) ∧
    (ConvError.raggedRowError n).message =
      "Row ".toList ++ natRepr n ++
      "of the matrix contains a different number of samples than the first row.".toList := by
  refine ⟨?_, rfl⟩
  rw [validateRows_ragged_iff file rows n]
  constructor
  · rintro ⟨h₁, h₂⟩
    rw [firstMismatch_eq_some_iff] at h₂
    exact ⟨h₁, h₂⟩
  · rintro ⟨h₁, h₂⟩
    rw [firstMismatch_eq_some_iff]
    exact ⟨h₁, h₂⟩

theorem c6_witness :
    validateRows "in.txt".toList [[⟨1, 0⟩], [⟨2, 0⟩, ⟨3, 0⟩]] =
      .error (.raggedRowError 2) := by
  have h := (c6_ragged_error "in.txt".toList [[⟨1, 0⟩], [⟨2, 0⟩, ⟨3, 0⟩]] 2).1
  exact h.mpr ⟨by decide, 1, by decide, by decide, by decide, by decide⟩

/-- C10: once validation succeeds every row of the matrix has the first
row's length, the transpose step maps it to a matrix whose rows all have the
pre-transpose row count as length, and the final matrix (with or without
transpose), whose rows are what the writers write, has all rows of equal
length. -/
theorem c10_rectangular_invariant (file content : List Char) (m₀ : List (List Dec))
    (t : Bool) (h : parsedMatrix file content = .ok m₀) :
    (∀ r ∈ m₀, r.length = (m₀.headD []).length) ∧
    (∀ r ∈ transpose m₀, r.length = m₀.length) ∧
    (∀ r ∈ (if t then transpose m₀ else m₀),
      r.length = ((if t then transpose m₀ else m₀).headD []).length) := by
  have hrows : ∃ rows, validateRows file rows = .ok m₀ := by
    unfold parsedMatrix at h
    rcases hpm : parseMatrix file content with e | rows
    · rw [hpm] at h
      exact absurd h (by simp)
    · rw [hpm] at h
      exact ⟨rows, h⟩
  obtain ⟨rows, hrows⟩ := hrows
  obtain ⟨hfil, hne, hlen⟩ := validateRows_ok file rows m₀ hrows
  refine ⟨hlen, transpose_row_length m₀ _ hlen hne, ?_⟩
  cases t with
  | false => simpa using hlen
  | true =>
    simp only [if_true]
    have hnonempty_rows : ∀ r ∈ m₀, r ≠ [] := by
      intro r hr
      rw [hfil] at hr
      have := List.mem_filter.mp hr
      simpa using this.2
    have hmem : m₀.headD [] ∈ m₀ := by
      cases m₀ with
      | nil => exact absurd rfl hne
      | cons r rs => simp
    have hCpos : 0 < (m₀.headD []).length :=
      List.length_pos.mpr (hnonempty_rows _ hmem)
    have hheadT : ((transpose m₀).headD []).length = m₀.length := by
      rw [transpose_eq_cols m₀ _ hlen hne]
      obtain ⟨C₂, hC₂⟩ : ∃ C₂, (m₀.headD []).length = C₂ + 1 :=
        ⟨(m₀.headD []).length - 1, by omega⟩
      rw [hC₂, List.range_succ_eq_map]
      simp [colAt]
    intro r hr
    rw [hheadT]
    exact transpose_row_length m₀ _ hlen hne r hr

theorem c10_witness :
    (∀ r ∈ [[(⟨1, 0⟩ : Dec), ⟨2, 0⟩], [⟨3, 0⟩, ⟨4, 0⟩]],
      r.length = (([[(⟨1, 0⟩ : Dec), ⟨2, 0⟩], [⟨3, 0⟩, ⟨4, 0⟩]]).headD []).length) ∧
    (∀ r ∈ transpose [[(⟨1, 0⟩ : Dec), ⟨2, 0⟩], [⟨3, 0⟩, ⟨4, 0⟩]],
      r.length = ([[(⟨1, 0⟩ : Dec), ⟨2, 0⟩], [⟨3, 0⟩, ⟨4, 0⟩]] : List (List Dec)).length) ∧
    (∀ r ∈ (if true then transpose [[(⟨1, 0⟩ : Dec), ⟨2, 0⟩], [⟨3, 0⟩, ⟨4, 0⟩]]
        else [[(⟨1, 0⟩ : Dec), ⟨2, 0⟩], [⟨3, 0⟩, ⟨4, 0⟩]]),
      r.length = ((if true then transpose [[(⟨1, 0⟩ : Dec), ⟨2, 0⟩], [⟨3, 0⟩, ⟨4, 0⟩]]
        else [[(⟨1, 0⟩ : Dec), ⟨2, 0⟩], [⟨3, 0⟩, ⟨4, 0⟩]]).headD []).length) :=
  c10_rectangular_invariant "i".toList "1 2\n3 4".toList
    [[⟨1, 0⟩, ⟨2, 0⟩], [⟨3, 0⟩, ⟨4, 0⟩]] true rfl

/-- C4: in per-row mode, with the planner decomposition `(pre, suf)` of the
pattern, a run whose streams all stay good writes exactly one file per row
of the final matrix, in order, named `pre ++ toString i ++ suf` for 1-based
`i`, each containing exactly that row, and all names are distinct; if the
stream for row `n` is the first not good after writing, the run fails with
the write error for that file and rows after `n` are not written. -/
theorem c4_per_row_writer (req : Request) (content : List Char)
    (m₀ M : List (List Dec)) (pre suf : List Char)
    (good : List Char → Nat → Bool) (n : Nat)
    (hsplit : req.shallCreateFileForEachRow = true)
    (hplan : planOutput req.replaceString req.outputFileNames = .ok (pre, suf))
    (hpm : parsedMatrix req.inputFileName content = .ok m₀)
    (hM : M = if req.shallTranspose then transpose m₀ else m₀) :
    (runConversion req content (fun _ _ => true) =
      ⟨(List.range M.length).map
        (fun k => (rowFileName pre suf (1 + k), rowText (M.getD k []))), none⟩) ∧
    ((List.range M.length).map (fun k => rowFileName pre suf (1 + k))).Pairwise
      (fun a b => a ≠ b) ∧
    ((∀ k, 1 ≤ k → k < n → good (rowFileName pre suf k) k = true) →
      good (rowFileName pre suf n) n = false → 1 ≤ n → n ≤ M.length →
      runConversion req content good =
        ⟨(List.range n).map
          (fun k => (rowFileName pre suf (1 + k), rowText (M.getD k []))),
         some (.writeError n (rowFileName pre suf n))⟩) := by
  have hrun : ∀ g : List Char → Nat → Bool,
      runConversion req content g = writePerRow pre suf g 1 M := by
    intro g
    unfold runConversion
    rw [hpm, hsplit, hplan, hM]
    simp
  refine ⟨?_, writePerRow_names_distinct pre suf M.length, ?_⟩
  · rw [hrun, writePerRow_allGood]
  · intro hgood hfail hn₁ hn₂
    rw [hrun, writePerRow_fail pre suf good M 1 n hn₁ (by omega) hgood hfail]
    have harith : n - 1 + 1 = n := by omega
    rw [harith]

theorem c4_witness :
    runConversion ⟨"in.txt".toList, false, true, "row_#.dat".toList, "#".toList⟩
        "1 2\n3 4".toList (fun _ _ => true) =
      ⟨[("row_1.dat".toList, "1 2 \n".toList), ("row_2.dat".toList, "3 4 \n".toList)],
       none⟩ ∧
    runConversion ⟨"in.txt".toList, false, true, "row_#.dat".toList, "#".toList⟩
        "1 2\n3 4".toList (fun _ k => decide (k ≠ 2)) =
      ⟨[("row_1.dat".toList, "1 2 \n".toList), ("row_2.dat".toList, "3 4 \n".toList)],
       some (.writeError 2 "row_2.dat".toList)⟩ := by
  have h := c4_per_row_writer ⟨"in.txt".toList, false, true, "row_#.dat".toList, "#".toList⟩
    "1 2\n3 4".toList [[⟨1, 0⟩, ⟨2, 0⟩], [⟨3, 0⟩, ⟨4, 0⟩]]
    [[⟨1, 0⟩, ⟨2, 0⟩], [⟨3, 0⟩, ⟨4, 0⟩]] "row_".toList ".dat".toList
    (fun _ k => decide (k ≠ 2)) 2 rfl rfl rfl rfl
  constructor
  · rw [h.1]
    decide
  · rw [h.2.2 (by decide) (by decide) (by decide) (by decide)]
    decide

/-- C7: with the split flag off the planning step never runs, so neither the
empty-token error nor the token-not-found error can occur for any token
value; with the split flag on and the earlier stages successful, an empty
token fails with the empty-token error and a non-empty token absent from the
pattern fails with the token-not-found error. -/
theorem c7_planner_errors (req : Request) (content : List Char)
    (good : List Char → Nat → Bool) (m₀ : List (List Dec)) :
    (req.shallCreateFileForEachRow = false →
      (runConversion req content good).error ≠ some .emptyTokenError ∧
      (runConversion req content good).error ≠ some .tokenNotFoundError) ∧
    (req.shallCreateFileForEachRow = true →
      parsedMatrix req.inputFileName content = .ok m₀ → req.replaceString = [] →
      runConversion req content good = ⟨[], some .emptyTokenError⟩) ∧
    (req.shallCreateFileForEachRow = true →
      parsedMatrix req.inputFileName content = .ok m₀ → req.replaceString ≠ [] →
      findBoyerMoore req.replaceString req.outputFileNames = none →
      runConversion req content good = ⟨[], some .tokenNotFoundError⟩) := by
  refine ⟨?_, ?_, ?_⟩
  · intro hsplit
    unfold runConversion
    rcases hpm : parsedMatrix req.inputFileName content with e | m
    · rcases parsedMatrix_error_shape req.inputFileName content e hpm with
        ⟨n, rfl⟩ | rfl | ⟨n, rfl⟩ <;> simp
    · rw [hsplit]
      simp only [Bool.false_eq_true, if_false]
      unfold writeSingle
      constructor
      · intro hcon
        obtain ⟨k, hk⟩ := writeSingleAux_error_shape req.outputFileNames good
          (if req.shallTranspose then transpose m else m) 1 [] _ hcon
        exact absurd hk (by simp)
      · intro hcon
        obtain ⟨k, hk⟩ := writeSingleAux_error_shape req.outputFileNames good
          (if req.shallTranspose then transpose m else m) 1 [] _ hcon
        exact absurd hk (by simp)
  · intro hsplit hpm htok
    unfold runConversion
    rw [hpm, hsplit]
    unfold planOutput
    rw [htok]
    simp
  · intro hsplit hpm htok hfind
    unfold runConversion
    rw [hpm, hsplit]
    unfold planOutput
    rw [if_neg (by simpa using htok), hfind]
    simp

theorem c7_witness :
    (runConversion ⟨"i".toList, false, false, "o".toList, []⟩ "1".toList
      (fun _ _ => true)).error ≠ some .emptyTokenError ∧
    runConversion ⟨"i".toList, false, true, "o".toList, []⟩ "1".toList
      (fun _ _ => true) = ⟨[], some .emptyTokenError⟩ ∧
    runConversion ⟨"i".toList, false, true, "o".toList, "#".toList⟩ "1".toList
      (fun _ _ => true) = ⟨[], some .tokenNotFoundError⟩ := by
  refine ⟨((c7_planner_errors ⟨"i".toList, false, false, "o".toList, []⟩ "1".toList
      (fun _ _ => true) []).1 rfl).1, ?_, ?_⟩
  · exact (c7_planner_errors ⟨"i".toList, false, true, "o".toList, []⟩ "1".toList
      (fun _ _ => true) [[⟨1, 0⟩]]).2.1 rfl rfl rfl
  · exact (c7_planner_errors ⟨"i".toList, false, true, "o".toList, "#".toList⟩ "1".toList
      (fun _ _ => true) [[⟨1, 0⟩]]).2.2 rfl rfl (by decide) rfl

/-- C8: validation drops exactly the zero-element rows (an order-preserving
sublist keeping precisely the non-empty rows), fails with the empty-matrix
error naming the input file iff no rows remain, and in particular a run on a
file whose content is all whitespace fails with the empty-matrix error. -/
theorem c8_empty_rows (file : List Char) (rows : List (List Dec)) :
    (validateRows file rows = .error (.emptyMatrixError file) ↔ ∀ r ∈ rows, r = []) ∧
    (∀ m, validateRows file rows = .ok m →
      m = rows.filter (fun r => !r.isEmpty) ∧ m.Sublist rows ∧
        ∀ r, r ∈ m ↔ (r ∈ rows ∧ r ≠ [])) ∧
    (∀ (req : Request) (content : List Char) (good : List Char → Nat → Bool),
      req.inputFileName = file → (∀ c ∈ content, isSpaceCpp c = true) →
      runConversion req content good = ⟨[], some (.emptyMatrixError file)⟩) := by
  refine ⟨validateRows_emptyMatrix_iff file rows, ?_, ?_⟩
  · intro m hok
    obtain ⟨hfil, -, -⟩ := validateRows_ok file rows m hok
    subst hfil
    refine ⟨rfl, List.filter_sublist rows, ?_⟩
    intro r
    rw [List.mem_filter]
    simp
  · intro req content good hfile hsp
    subst hfile
    have hlines : ∀ l ∈ extractByLine content, parseLine l = ([], false) := by
      intro l hl
      exact parseLine_all_space l (fun c hc => hsp c (extractByLine_chars content l hl c hc))
    have hparse : parseMatrix req.inputFileName content =
        .ok ((extractByLine content).map (fun l => (parseLine l).1)) := by
      unfold parseMatrix
      exact parseMatrixAux_ok_of_all req.inputFileName (extractByLine content) 1
        (fun l hl => by rw [hlines l hl])
    have hallnil : ∀ r ∈ (extractByLine content).map (fun l => (parseLine l).1), r = [] := by
      intro r hr
      simp only [List.mem_map] at hr
      obtain ⟨l, hl, rfl⟩ := hr
      rw [hlines l hl]
    have hpm : parsedMatrix req.inputFileName content =
        .error (.emptyMatrixError req.inputFileName) := by
      unfold parsedMatrix
      rw [hparse]
      exact (validateRows_emptyMatrix_iff req.inputFileName _).mpr hallnil
    unfold runConversion
    rw [hpm]

theorem c8_witness :
    (validateRows "a.txt".toList [[], [⟨1, 0⟩]] = .error (.emptyMatrixError "a.txt".toList)
      ↔ ∀ r ∈ [[], [(⟨1, 0⟩ : Dec)]], r = []) ∧
    runConversion ⟨"a.txt".toList, false, false, "o".toList, []⟩ " \n \n".toList
      (fun _ _ => true) = ⟨[], some (.emptyMatrixError "a.txt".toList)⟩ := by
  have h := c8_empty_rows "a.txt".toList [[], [⟨1, 0⟩]]
  exact ⟨h.1, h.2.2 ⟨"a.txt".toList, false, false, "o".toList, []⟩ " \n \n".toList
    (fun _ _ => true) rfl (by decide)⟩


end ConvertMatrix
